import Mathlib

/-!
Verification of the Golay codec library (standard (23,12,7) and extended
(24,12,8) codes) against its specification.

The library consists of two modules, `standard` and `extended`, each with an
`encode`/`decode` pair and constant matrices, on top of a GF(2) matrix-vector
multiplication primitive (`matrix_mul`, `matrix_mul_systematic`) supplied by
the external `binfield_matrix` crate.  The primitive is modelled from the
spec's contract for it (section 4.1): bit `i` of the result is the parity of
the bitwise AND of the input vector with the `i`-th row mask, rows ordered
from the most significant result bit down.

Machine integers (`u16`, `u32`) are modelled as `Nat`; all values handled by
the library fit in 24 bits, so `popcount` (Rust `count_ones`) is modelled as
the number of set bits among the low 24 bits.  The `assert_eq!` width
preconditions are modelled by the `encodeChecked`/`decodeChecked` wrappers,
where `none` stands for the fatal assertion failure.
-/

set_option maxRecDepth 8000

/-- Number of set bits among the low `k` bits of `n` (fuel-based so that it
reduces well in the kernel). -/
def popcountBits : Nat → Nat → Nat
  | 0, _ => 0
  | k + 1, n => if n = 0 then 0 else n % 2 + popcountBits k (n / 2)

/-- Population count (Rust `count_ones`).  Every value the library handles is
below `2^24`, so counting the low 24 bits is exact. -/
def popcount (n : Nat) : Nat := popcountBits 24 n

/-- Fold of the GF(2) matrix-vector product: shift the accumulator and add
the parity of `v &&& r` for each row `r` in order. -/
def mmAux (v : Nat) : List Nat → Nat → Nat
  | [], acc => acc
  | r :: rows, acc => mmAux v rows (2 * acc + popcount (v &&& r) % 2)

/-- GF(2) matrix-vector product, as specified for the external primitive:
the result bit for the `i`-th row (counting from the most significant end)
is the parity of `v &&& rows[i]`. -/
def matrix_mul (v : Nat) (rows : List Nat) : Nat := mmAux v rows 0

/-- Systematic GF(2) product: the data bits placed unchanged above the
computed parity bits (the product with `[ I | A ]`). -/
def matrix_mul_systematic (d : Nat) (rows : List Nat) : Nat :=
  d <<< rows.length ||| matrix_mul d rows

namespace Standard

/-- Transpose of the generator parity submatrix of the standard code
(`CORE_XPOSE` in `standard.rs`). -/
def CORE_XPOSE : List Nat :=
  [0b101001001111, 0b111101101000, 0b011110110100, 0b001111011010,
   0b000111101101, 0b101010111001, 0b111100010011, 0b110111000110,
   0b011011100011, 0b100100111110, 0b010010011111]

/-- Parity-check matrix of the standard code (`PAR` in `standard.rs`). -/
def PAR : List Nat :=
  [0b10100100111110000000000, 0b11110110100001000000000, 0b01111011010000100000000,
   0b00111101101000010000000, 0b00011110110100001000000, 0b10101011100100000100000,
   0b11110001001100000010000, 0b11011100011000000001000, 0b01101110001100000000100,
   0b10010011111000000000010, 0b01001001111100000000001]

/-- Syndromes of single-bit errors in the upper 12 bits (`SYN` in
`standard.rs`). -/
def SYN : List Nat :=
  [0b10001110101, 0b10010011111, 0b10101001011, 0b11011100011,
   0b00110110011, 0b01101100110, 0b11011001100, 0b00111101101,
   0b01111011010, 0b11110110100, 0b01100011101, 0b11000111010]

/-- `standard::encode` (the body after the width assertion). -/
def encode (data : Nat) : Nat := matrix_mul_systematic data CORE_XPOSE

/-- `standard::rotate_11`: circular right shift of a 23-bit word by 11. -/
def rotate_11 (word : Nat) : Nat := word >>> 11 ||| (word &&& 0x7FF) <<< 12

/-- Second cascade stage of `standard::decode`: the `for (i, &syn) in
SYN.iter().enumerate()` loop. -/
def stage2 (data s : Nat) : List Nat → Nat → Option (Nat × Nat)
  | [], _ => none
  | syn :: rest, i =>
    if popcount (s ^^^ syn) ≤ 2 then some (data ^^^ (1 <<< i), popcount (s ^^^ syn) + 1)
    else stage2 data s rest (i + 1)

/-- Fourth cascade stage of `standard::decode`: the second `SYN` loop, with
the special case at index 0 for the data MSB. -/
def stage4 (data s : Nat) : List Nat → Nat → Option (Nat × Nat)
  | [], _ => none
  | syn :: rest, i =>
    if popcount (s ^^^ syn) ≤ 2 then
      if i = 0 then some (data ^^^ (s ^^^ syn) ^^^ (1 <<< 11), popcount (s ^^^ syn) + 1)
      else some (data ^^^ (s ^^^ syn), 3)
    else stage4 data s rest (i + 1)

/-- `standard::decode` (the body after the width assertion). -/
def decode (word : Nat) : Option (Nat × Nat) :=
  let data := word >>> 11
  let s := matrix_mul word PAR
  if popcount s ≤ 3 then some (data, popcount s)
  else
    match stage2 data s SYN 0 with
    | some r => some r
    | none =>
      let s2 := matrix_mul (rotate_11 word) PAR
      if popcount s2 ≤ 3 then some (data ^^^ s2, popcount s2)
      else stage4 data s2 SYN 0

/-- `standard::encode` with its width assertion: `none` models the fatal
assertion failure on `data >> 12 != 0`. -/
def encodeChecked (data : Nat) : Option Nat :=
  if data >>> 12 = 0 then some (encode data) else none

/-- `standard::decode` with its width assertion: the outer `none` models the
fatal assertion failure on `word >> 23 != 0`. -/
def decodeChecked (word : Nat) : Option (Option (Nat × Nat)) :=
  if word >>> 23 = 0 then some (decode word) else none

end Standard

namespace Extended

/-- Generator parity submatrix of the extended code (`CORE` in
`extended.rs`). -/
def CORE : List Nat :=
  [0b110001110101, 0b011000111011, 0b111101101000, 0b011110110100,
   0b001111011010, 0b110110011001, 0b011011001101, 0b001101100111,
   0b110111000110, 0b101010010111, 0b100100111110, 0b100011101011]

/-- Transpose of the generator parity submatrix (`CORE_XPOSE` in
`extended.rs`). -/
def CORE_XPOSE : List Nat :=
  [0b101001001111, 0b111101101000, 0b011110110100, 0b001111011010,
   0b000111101101, 0b101010111001, 0b111100010011, 0b110111000110,
   0b011011100011, 0b100100111110, 0b010010011111, 0b110001110101]

/-- Parity-check matrix `[ Aᵗ | I ]` of the extended code (`PAR` in
`extended.rs`). -/
def PAR : List Nat :=
  [0b101001001111100000000000, 0b111101101000010000000000, 0b011110110100001000000000,
   0b001111011010000100000000, 0b000111101101000010000000, 0b101010111001000001000000,
   0b111100010011000000100000, 0b110111000110000000010000, 0b011011100011000000001000,
   0b100100111110000000000100, 0b010010011111000000000010, 0b110001110101000000000001]

/-- Alternative parity-check matrix `[ I | A ]` (`PAR_ALT` in
`extended.rs`). -/
def PAR_ALT : List Nat :=
  [0b100000000000110001110101, 0b010000000000011000111011, 0b001000000000111101101000,
   0b000100000000011110110100, 0b000010000000001111011010, 0b000001000000110110011001,
   0b000000100000011011001101, 0b000000010000001101100111, 0b000000001000110111000110,
   0b000000000100101010010111, 0b000000000010100100111110, 0b000000000001100011101011]

/-- `extended::encode` (the body after the width assertion). -/
def encode (data : Nat) : Nat := matrix_mul_systematic data CORE_XPOSE

/-- Second cascade stage of `extended::decode`: the `for &q in
CORE_XPOSE.iter()` loop. -/
def stage2 (data s : Nat) : List Nat → Option (Nat × Nat)
  | [] => none
  | q :: rest =>
    if popcount (s ^^^ q) ≤ 2 then some (data ^^^ (s ^^^ q), popcount (s ^^^ q) + 1)
    else stage2 data s rest

/-- Fourth cascade stage of `extended::decode`: the `for (i, &q) in
CORE.iter().enumerate()` loop. -/
def stage4 (data s : Nat) : List Nat → Nat → Option (Nat × Nat)
  | [], _ => none
  | q :: rest, i =>
    if popcount (s ^^^ q) ≤ 2 then some (data ^^^ (1 <<< 11 >>> i), 3)
    else stage4 data s rest (i + 1)

/-- `extended::decode` (the body after the width assertion). -/
def decode (word : Nat) : Option (Nat × Nat) :=
  let data := word >>> 12
  let s := matrix_mul word PAR_ALT
  if popcount s ≤ 3 then some (data ^^^ s, popcount s)
  else
    match stage2 data s CORE_XPOSE with
    | some r => some r
    | none =>
      let s2 := matrix_mul word PAR
      if popcount s2 ≤ 3 then some (data, popcount s2)
      else stage4 data s2 CORE 0

/-- `extended::encode` with its width assertion: `none` models the fatal
assertion failure on `data >> 12 != 0`. -/
def encodeChecked (data : Nat) : Option Nat :=
  if data >>> 12 = 0 then some (encode data) else none

/-- `extended::decode` with its width assertion: the outer `none` models the
fatal assertion failure on `word >> 24 != 0`. -/
def decodeChecked (word : Nat) : Option (Option (Nat × Nat)) :=
  if word >>> 24 = 0 then some (decode word) else none

end Extended

/-- XOR of the powers `2 ^ i` over a list of bit positions (used to
decompose a value into its set bits). -/
def pow2xor : List Nat → Nat
  | [] => 0
  | i :: l => 2 ^ i ^^^ pow2xor l

/-- Branch-free parity of a 12-bit value (`0x6996` is the 4-bit parity
table).  Only used to make the exhaustive minimum-weight check cheap; its
agreement with `popcount · % 2` is verified over all 4096 values. -/
def par12 (x : Nat) : Nat := 0x6996 >>> ((x ^^^ x >>> 4 ^^^ x >>> 8) &&& 15) &&& 1

/-- Branch-free popcount of a 12-bit value; agreement with `popcount` is
verified over all 4096 values. -/
def pc12f (x : Nat) : Nat :=
  (((((x &&& 0x555) + (x >>> 1 &&& 0x555)) &&& 0x333)
      + ((((x &&& 0x555) + (x >>> 1 &&& 0x555)) >>> 2) &&& 0x333)) * 0x111) >>> 8 &&& 0xF

/-- The matrix-multiply fold with the branch-free parity. -/
def mmF (v : Nat) : List Nat → Nat → Nat
  | [], acc => acc
  | r :: rows, acc => mmF v rows (2 * acc + par12 (v &&& r))

/-! ### Arithmetic toolkit: popcount, bitwise helpers, matrix-multiply algebra -/

theorem popcountBits_zero (k : Nat) : popcountBits k 0 = 0 := by
  cases k <;> simp [popcountBits]

theorem popcountBits_succ (k n : Nat) :
    popcountBits (k + 1) n = n % 2 + popcountBits k (n / 2) := by
  by_cases h : n = 0
  · subst h; simp [popcountBits, popcountBits_zero]
  · simp [popcountBits, h]

theorem popcountBits_adequate :
    ∀ k j n, n < 2 ^ k → popcountBits (k + j) n = popcountBits k n := by
  intro k
  induction k with
  | zero =>
    intro j n hn
    interval_cases n
    simp [popcountBits_zero]
  | succ k ih =>
    intro j n hn
    have h2 : n / 2 < 2 ^ k := by
      rw [Nat.div_lt_iff_lt_mul (by norm_num)]
      calc n < 2 ^ (k + 1) := hn
        _ = 2 ^ k * 2 := by ring
    have : k + 1 + j = (k + j) + 1 := by omega
    rw [this, popcountBits_succ, popcountBits_succ, ih j (n / 2) h2]

theorem popcountBits_xor_mod_two (k : Nat) :
    ∀ x y, popcountBits k (x ^^^ y) % 2 = (popcountBits k x + popcountBits k y) % 2 := by
  induction k with
  | zero => intro x y; simp [popcountBits]
  | succ k ih =>
    intro x y
    rw [popcountBits_succ, popcountBits_succ, popcountBits_succ,
      Nat.xor_div_two]
    have h1 : (x ^^^ y) % 2 = (x + y) % 2 := Nat.xor_mod_two_eq
    have h2 := ih (x / 2) (y / 2)
    omega

theorem popcountBits_xor_le (k : Nat) :
    ∀ x y, popcountBits k (x ^^^ y) ≤ popcountBits k x + popcountBits k y := by
  induction k with
  | zero => intro x y; simp [popcountBits]
  | succ k ih =>
    intro x y
    rw [popcountBits_succ, popcountBits_succ, popcountBits_succ,
      Nat.xor_div_two]
    have h1 : (x ^^^ y) % 2 = (x + y) % 2 := Nat.xor_mod_two_eq
    have h2 := ih (x / 2) (y / 2)
    omega

theorem popcountBits_mul_pow_add (j : Nat) :
    ∀ k a b, b < 2 ^ k → popcountBits (j + k) (a * 2 ^ k + b) = popcountBits j a + popcountBits k b := by
  intro k
  induction k with
  | zero =>
    intro a b hb
    interval_cases b
    simp [popcountBits_zero]
  | succ k ih =>
    intro a b hb
    have hb2 : b / 2 < 2 ^ k := by
      rw [Nat.div_lt_iff_lt_mul (by norm_num)]
      calc b < 2 ^ (k + 1) := hb
        _ = 2 ^ k * 2 := by ring
    have e1 : a * 2 ^ (k + 1) + b = (a * 2 ^ k) * 2 + b := by ring_nf
    have e2 : ((a * 2 ^ k) * 2 + b) % 2 = b % 2 := by omega
    have e3 : ((a * 2 ^ k) * 2 + b) / 2 = a * 2 ^ k + b / 2 := by omega
    have : j + (k + 1) = (j + k) + 1 := by omega
    rw [this, popcountBits_succ, e1, e2, e3, ih a (b / 2) hb2, popcountBits_succ]
    omega

theorem popcount_xor_mod_two (x y : Nat) :
    popcount (x ^^^ y) % 2 = (popcount x + popcount y) % 2 :=
  popcountBits_xor_mod_two 24 x y

theorem popcount_xor_le (x y : Nat) :
    popcount (x ^^^ y) ≤ popcount x + popcount y :=
  popcountBits_xor_le 24 x y

theorem popcount_le_of_lt {k : Nat} (hk : k ≤ 24) {a : Nat} (ha : a < 2 ^ k) :
    popcount a = popcountBits k a := by
  have : popcountBits (k + (24 - k)) a = popcountBits k a := popcountBits_adequate k (24 - k) a ha
  unfold popcount
  rw [show 24 = k + (24 - k) by omega, this]

theorem popcount_mul_pow_add {k a b : Nat} (hk : k ≤ 24) (ha : a < 2 ^ (24 - k))
    (hb : b < 2 ^ k) : popcount (a * 2 ^ k + b) = popcount a + popcount b := by
  have h1 : popcountBits ((24 - k) + k) (a * 2 ^ k + b)
      = popcountBits (24 - k) a + popcountBits k b := popcountBits_mul_pow_add (24 - k) k a b hb
  rw [show (24 - k) + k = 24 by omega] at h1
  rw [popcount, h1, ← popcount_le_of_lt (by omega) ha, ← popcount_le_of_lt hk hb]

/-! Bitwise distribution helpers. -/

theorem shiftLeft_xor_distrib (x y k : Nat) : (x ^^^ y) <<< k = x <<< k ^^^ y <<< k := by
  apply Nat.eq_of_testBit_eq
  intro i
  simp only [Nat.testBit_shiftLeft, Nat.testBit_xor]
  cases h : decide (k ≤ i) <;> simp

theorem shiftRight_xor_distrib (x y k : Nat) : (x ^^^ y) >>> k = x >>> k ^^^ y >>> k := by
  apply Nat.eq_of_testBit_eq
  intro i
  simp [Nat.testBit_shiftRight, Nat.testBit_xor]

theorem lor_eq_xor_of_and_eq_zero {x y : Nat} (h : x &&& y = 0) : x ||| y = x ^^^ y := by
  apply Nat.eq_of_testBit_eq
  intro i
  have hb : (x &&& y).testBit i = false := by rw [h]; exact Nat.zero_testBit i
  rw [Nat.testBit_and] at hb
  simp only [Nat.testBit_or, Nat.testBit_xor]
  cases h1 : x.testBit i <;> cases h2 : y.testBit i <;> simp_all

theorem two_pow_and_eq_zero {t A : Nat} (h : A < 2 ^ t) : 2 ^ t &&& A = 0 := by
  apply Nat.eq_of_testBit_eq
  intro i
  simp only [Nat.testBit_and, Nat.zero_testBit]
  by_cases hne : t = i
  · subst hne; simp [Nat.testBit_lt_two_pow h]
  · simp [Nat.testBit_two_pow_of_ne hne]

theorem mul_pow_add_eq_xor {t p A : Nat} (hA : A < 2 ^ t) :
    p * 2 ^ t + A = p * 2 ^ t ^^^ A := by
  rw [Nat.mul_comm p, Nat.mul_add_lt_is_or hA]
  apply lor_eq_xor_of_and_eq_zero
  apply Nat.eq_of_testBit_eq
  intro i
  simp only [Nat.testBit_and, Nat.zero_testBit]
  rcases Nat.lt_or_ge i t with hi | hi
  · have : (2 ^ t * p).testBit i = false := by
      rw [Nat.mul_comm, ← Nat.shiftLeft_eq]
      simp [Nat.testBit_shiftLeft, Nat.not_le.mpr hi]
    simp [this]
  · have : A.testBit i = false := Nat.testBit_lt_two_pow (lt_of_lt_of_le hA (Nat.pow_le_pow_right (by norm_num) hi))
    simp [this]

theorem shiftLeft_lor_eq_add {k a b : Nat} (hb : b < 2 ^ k) :
    a <<< k ||| b = a * 2 ^ k + b := by
  rw [Nat.shiftLeft_eq, Nat.mul_comm a, Nat.mul_add_lt_is_or hb, Nat.mul_comm]

theorem xor_high_low {t p q A B : Nat} (hp : p ≤ 1) (hq : q ≤ 1)
    (hA : A < 2 ^ t) (hB : B < 2 ^ t) :
    (p * 2 ^ t + A) ^^^ (q * 2 ^ t + B) = (p + q) % 2 * 2 ^ t + (A ^^^ B) := by
  rw [mul_pow_add_eq_xor hA, mul_pow_add_eq_xor hB,
    mul_pow_add_eq_xor (Nat.xor_lt_two_pow hA hB)]
  have hr : p * 2 ^ t ^^^ q * 2 ^ t = (p + q) % 2 * 2 ^ t := by
    interval_cases p <;> interval_cases q <;> simp
  calc p * 2 ^ t ^^^ A ^^^ (q * 2 ^ t ^^^ B)
      = (p * 2 ^ t ^^^ q * 2 ^ t) ^^^ (A ^^^ B) := by
        rw [Nat.xor_assoc, Nat.xor_assoc]
        congr 1
        rw [← Nat.xor_assoc, Nat.xor_comm A, Nat.xor_assoc]
    _ = (p + q) % 2 * 2 ^ t ^^^ (A ^^^ B) := by rw [hr]

theorem shiftRight_eq_zero_iff {x k : Nat} : x >>> k = 0 ↔ x < 2 ^ k := by
  rw [Nat.shiftRight_eq_div_pow]
  exact Nat.div_eq_zero_iff (Nat.two_pow_pos k)

/-! Matrix-multiply algebra. -/

theorem mmAux_acc (v : Nat) : ∀ (rows : List Nat) (a : Nat),
    mmAux v rows a = a * 2 ^ rows.length + mmAux v rows 0 := by
  intro rows
  induction rows with
  | nil => intro a; simp [mmAux]
  | cons r rows ih =>
    intro a
    show mmAux v rows (2 * a + popcount (v &&& r) % 2)
      = a * 2 ^ (r :: rows).length + mmAux v rows (2 * 0 + popcount (v &&& r) % 2)
    rw [ih (2 * a + popcount (v &&& r) % 2), ih (2 * 0 + popcount (v &&& r) % 2)]
    simp [List.length_cons, Nat.pow_succ]
    ring

theorem matrix_mul_nil (v : Nat) : matrix_mul v [] = 0 := rfl

theorem matrix_mul_cons (v r : Nat) (rows : List Nat) :
    matrix_mul v (r :: rows) = popcount (v &&& r) % 2 * 2 ^ rows.length + matrix_mul v rows := by
  show mmAux v rows (2 * 0 + popcount (v &&& r) % 2) = _
  rw [mmAux_acc]
  simp [matrix_mul]

theorem matrix_mul_lt (v : Nat) : ∀ rows : List Nat, matrix_mul v rows < 2 ^ rows.length := by
  intro rows
  induction rows with
  | nil => simp [matrix_mul_nil]
  | cons r rows ih =>
    rw [matrix_mul_cons]
    have hp : popcount (v &&& r) % 2 ≤ 1 := by omega
    have h2 : (2 : Nat) ^ (r :: rows).length = 2 ^ rows.length * 2 := by
      simp [List.length_cons, Nat.pow_succ]
    rw [h2]
    have := Nat.two_pow_pos rows.length
    nlinarith [ih, hp]

theorem matrix_mul_xor (x y : Nat) : ∀ rows : List Nat,
    matrix_mul (x ^^^ y) rows = matrix_mul x rows ^^^ matrix_mul y rows := by
  intro rows
  induction rows with
  | nil => simp [matrix_mul_nil]
  | cons r rows ih =>
    rw [matrix_mul_cons, matrix_mul_cons, matrix_mul_cons, ih]
    have hpx : popcount (x &&& r) % 2 ≤ 1 := by omega
    have hpy : popcount (y &&& r) % 2 ≤ 1 := by omega
    rw [xor_high_low hpx hpy (matrix_mul_lt x rows) (matrix_mul_lt y rows)]
    congr 2
    rw [Nat.and_xor_distrib_right]
    rw [popcount_xor_mod_two, Nat.add_mod]

theorem matrix_mul_zero (rows : List Nat) : matrix_mul 0 rows = 0 := by
  have h := matrix_mul_xor 0 0 rows
  simp at h
  omega

/-! Decomposition of a bounded value into a XOR of distinct powers of two,
and the resulting extension of facts about GF(2)-linear maps from the basis
vectors to the whole range. -/

theorem pow2xor_map_succ (l : List Nat) : pow2xor (l.map (· + 1)) = 2 * pow2xor l := by
  induction l with
  | nil => simp [pow2xor]
  | cons i l ih =>
    show 2 ^ (i + 1) ^^^ pow2xor (l.map (· + 1)) = 2 * (2 ^ i ^^^ pow2xor l)
    rw [ih]
    have h1 : ∀ x : Nat, 2 * x = x <<< 1 := by
      intro x; rw [Nat.shiftLeft_eq]; ring
    rw [h1, h1, shiftLeft_xor_distrib]
    congr 1
    rw [Nat.shiftLeft_eq, Nat.pow_succ]

theorem exists_pow2xor : ∀ (k : Nat), ∀ e < 2 ^ k,
    ∃ l : List Nat, (∀ i ∈ l, i < k) ∧ pow2xor l = e := by
  intro k
  induction k with
  | zero =>
    intro e he
    interval_cases e
    exact ⟨[], by simp, rfl⟩
  | succ k ih =>
    intro e he
    have h2 : e / 2 < 2 ^ k := by
      rw [Nat.div_lt_iff_lt_mul (by norm_num)]
      calc e < 2 ^ (k + 1) := he
        _ = 2 ^ k * 2 := by ring
    obtain ⟨l, hlb, hle⟩ := ih (e / 2) h2
    by_cases hmod : e % 2 = 0
    · refine ⟨l.map (· + 1), ?_, ?_⟩
      · intro i hi
        obtain ⟨j, hj, rfl⟩ := List.mem_map.mp hi
        exact Nat.succ_lt_succ (hlb j hj)
      · rw [pow2xor_map_succ, hle]; omega
    · refine ⟨0 :: l.map (· + 1), ?_, ?_⟩
      · intro i hi
        rcases List.mem_cons.mp hi with rfl | hi
        · omega
        · obtain ⟨j, hj, rfl⟩ := List.mem_map.mp hi
          exact Nat.succ_lt_succ (hlb j hj)
      · show 2 ^ 0 ^^^ pow2xor (l.map (· + 1)) = e
        rw [pow2xor_map_succ, hle]
        have heven : (2 * (e / 2)) &&& 1 = 0 := by
          apply Nat.eq_of_testBit_eq
          intro i
          simp only [Nat.testBit_and, Nat.zero_testBit]
          cases i with
          | zero =>
            have : (2 * (e / 2)).testBit 0 = false := by
              rw [Nat.testBit_to_div_mod]
              simp [Nat.mul_mod_right]
            simp [this]
          | succ i =>
            have : (1 : Nat).testBit (i + 1) = false := by
              rw [Nat.testBit_to_div_mod]
              have : 1 / 2 ^ (i + 1) = 0 := by
                apply (Nat.div_eq_zero_iff (Nat.two_pow_pos _)).mpr
                have := Nat.one_lt_two_pow_iff.mpr (by omega : i + 1 ≠ 0)
                omega
              simp [this]
            simp [this]
        have := lor_eq_xor_of_and_eq_zero heven
        rw [Nat.xor_comm, pow_zero, ← this]
        have : 2 * (e / 2) ||| 1 = 2 * (e / 2) + 1 := by
          have h1 : (1 : Nat) < 2 ^ 1 := by norm_num
          have := Nat.mul_add_lt_is_or (a := e / 2) h1
          simpa [Nat.pow_one] using this.symm
        rw [this]
        omega

/-- Two GF(2)-linear maps that agree on the basis vectors below `2 ^ k` agree
on every value below `2 ^ k`. -/
theorem linmap_eq_of_basis {f g : Nat → Nat}
    (hf : ∀ x y, f (x ^^^ y) = f x ^^^ f y) (hg : ∀ x y, g (x ^^^ y) = g x ^^^ g y)
    {k : Nat} (hb : ∀ i < k, f (2 ^ i) = g (2 ^ i)) :
    ∀ e < 2 ^ k, f e = g e := by
  have hf0 : f 0 = 0 := by
    have := hf 0 0
    simp at this
    omega
  have hg0 : g 0 = 0 := by
    have := hg 0 0
    simp at this
    omega
  intro e he
  obtain ⟨l, hlb, rfl⟩ := exists_pow2xor k e he
  clear he
  induction l with
  | nil => show f 0 = g 0; rw [hf0, hg0]
  | cons i l ih =>
    show f (2 ^ i ^^^ pow2xor l) = g (2 ^ i ^^^ pow2xor l)
    rw [hf, hg, hb i (hlb i (by simp)), ih (fun j hj => hlb j (by simp [hj]))]

theorem xor_left_comm (a b c : Nat) : a ^^^ (b ^^^ c) = b ^^^ (a ^^^ c) := by
  rw [← Nat.xor_assoc, Nat.xor_comm a b, Nat.xor_assoc]

theorem shiftLeft_lor_shiftRight {k a b : Nat} (hb : b < 2 ^ k) :
    (a <<< k ||| b) >>> k = a := by
  rw [shiftLeft_lor_eq_add hb, Nat.shiftRight_eq_div_pow, Nat.mul_comm,
    Nat.mul_add_div (Nat.two_pow_pos k), (Nat.div_eq_zero_iff (Nat.two_pow_pos k)).mpr hb]
  omega

theorem shiftRight_lt {w m k : Nat} (hw : w < 2 ^ (m + k)) : w >>> k < 2 ^ m := by
  rw [Nat.shiftRight_eq_div_pow, Nat.div_lt_iff_lt_mul (Nat.two_pow_pos k), ← Nat.pow_add]
  exact hw

theorem shiftLeft_lor_lt {k m a b : Nat} (ha : a < 2 ^ m) (hb : b < 2 ^ k) :
    a <<< k ||| b < 2 ^ (m + k) := by
  rw [shiftLeft_lor_eq_add hb]
  calc a * 2 ^ k + b < a * 2 ^ k + 2 ^ k := by omega
    _ = (a + 1) * 2 ^ k := by ring
    _ ≤ 2 ^ m * 2 ^ k := Nat.mul_le_mul_right _ (by omega)
    _ = 2 ^ (m + k) := by rw [Nat.pow_add]

/-! ### Facts about the standard codec -/

namespace Standard

theorem encode_eq_xor_std (d : Nat) : encode d = d <<< 11 ^^^ matrix_mul d CORE_XPOSE := by
  have hlt : matrix_mul d CORE_XPOSE < 2 ^ 11 := matrix_mul_lt d CORE_XPOSE
  show d <<< CORE_XPOSE.length ||| matrix_mul d CORE_XPOSE = _
  rw [show CORE_XPOSE.length = 11 from rfl, shiftLeft_lor_eq_add hlt,
    mul_pow_add_eq_xor hlt, Nat.shiftLeft_eq]

theorem encode_xor_std (x y : Nat) : encode (x ^^^ y) = encode x ^^^ encode y := by
  rw [encode_eq_xor_std, encode_eq_xor_std, encode_eq_xor_std, matrix_mul_xor, shiftLeft_xor_distrib]
  rw [Nat.xor_assoc, Nat.xor_assoc]
  congr 1
  exact xor_left_comm _ _ _

theorem encode_shiftRight_std (d : Nat) : encode d >>> 11 = d := by
  have hlt : matrix_mul d CORE_XPOSE < 2 ^ 11 := matrix_mul_lt d CORE_XPOSE
  show (d <<< CORE_XPOSE.length ||| matrix_mul d CORE_XPOSE) >>> 11 = d
  rw [show CORE_XPOSE.length = 11 from rfl]
  exact shiftLeft_lor_shiftRight hlt

theorem encode_lt_std {d : Nat} (hd : d < 2 ^ 12) : encode d < 2 ^ 23 := by
  have hlt : matrix_mul d CORE_XPOSE < 2 ^ 11 := matrix_mul_lt d CORE_XPOSE
  show d <<< CORE_XPOSE.length ||| matrix_mul d CORE_XPOSE < 2 ^ 23
  rw [show CORE_XPOSE.length = 11 from rfl]
  exact shiftLeft_lor_lt hd hlt

theorem sigma_basis : ∀ i < 12, matrix_mul (encode (2 ^ i)) PAR = 0 := by decide!

theorem sigma_encode_eq_zero : ∀ d < 2 ^ 12, matrix_mul (encode d) PAR = 0 := by
  have hf : ∀ x y, matrix_mul (encode (x ^^^ y)) PAR
      = matrix_mul (encode x) PAR ^^^ matrix_mul (encode y) PAR := by
    intro x y
    rw [encode_xor_std, matrix_mul_xor]
  have h := linmap_eq_of_basis (f := fun d => matrix_mul (encode d) PAR) (g := fun _ => 0)
    hf (fun x y => by simp) (k := 12) (fun i hi => sigma_basis i hi)
  intro d hd
  exact h d hd

theorem sigma_low_basis : ∀ i < 11, matrix_mul (2 ^ i) PAR = 2 ^ i := by decide!

theorem sigma_low_id : ∀ v < 2 ^ 11, matrix_mul v PAR = v := by
  have h := linmap_eq_of_basis (f := fun v => matrix_mul v PAR) (g := fun v => v)
    (fun x y => matrix_mul_xor x y PAR) (fun x y => rfl)
    (k := 11) (fun i hi => sigma_low_basis i hi)
  intro v hv
  exact h v hv

theorem decode_encode_std : ∀ d < 2 ^ 12, decode (encode d) = some (d, 0) := by
  intro d hd
  show (if popcount (matrix_mul (encode d) PAR) ≤ 3
      then some (encode d >>> 11, popcount (matrix_mul (encode d) PAR))
      else _) = some (d, 0)
  rw [sigma_encode_eq_zero d hd, encode_shiftRight_std]
  simp [popcount, popcountBits_zero]

/-- Zero syndrome characterizes exact codewords (standard code). -/
theorem syndrome_zero_iff_std : ∀ w < 2 ^ 23,
    (matrix_mul w PAR = 0 ↔ ∃ d, d < 2 ^ 12 ∧ w = encode d) := by
  intro w hw
  constructor
  · intro h0
    have hd : w >>> 11 < 2 ^ 12 := shiftRight_lt (by exact hw)
    refine ⟨w >>> 11, hd, ?_⟩
    have hv : (w ^^^ encode (w >>> 11)) >>> 11 = 0 := by
      rw [shiftRight_xor_distrib, encode_shiftRight_std, Nat.xor_self]
    have hvlt : w ^^^ encode (w >>> 11) < 2 ^ 11 := shiftRight_eq_zero_iff.mp hv
    have hsv : matrix_mul (w ^^^ encode (w >>> 11)) PAR = 0 := by
      rw [matrix_mul_xor, h0, sigma_encode_eq_zero _ hd]
      simp
    have := sigma_low_id _ hvlt
    rw [hsv] at this
    have : w = encode (w >>> 11) := Nat.xor_eq_zero.mp this.symm
    exact this
  · rintro ⟨d, hd, rfl⟩
    exact sigma_encode_eq_zero d hd

end Standard

theorem split_shift (k w : Nat) : w = (w >>> k) <<< k ^^^ w % 2 ^ k := by
  have hm : w % 2 ^ k < 2 ^ k := Nat.mod_lt _ (Nat.two_pow_pos k)
  rw [Nat.shiftLeft_eq, ← mul_pow_add_eq_xor hm, Nat.shiftRight_eq_div_pow, Nat.mul_comm]
  exact (Nat.div_add_mod w (2 ^ k)).symm

/-! ### Facts about the extended codec -/

namespace Extended

theorem encode_eq_xor (d : Nat) : encode d = d <<< 12 ^^^ matrix_mul d CORE_XPOSE := by
  have hlt : matrix_mul d CORE_XPOSE < 2 ^ 12 := matrix_mul_lt d CORE_XPOSE
  show d <<< CORE_XPOSE.length ||| matrix_mul d CORE_XPOSE = _
  rw [show CORE_XPOSE.length = 12 from rfl, shiftLeft_lor_eq_add hlt,
    mul_pow_add_eq_xor hlt, Nat.shiftLeft_eq]

theorem encode_xor (x y : Nat) : encode (x ^^^ y) = encode x ^^^ encode y := by
  rw [encode_eq_xor, encode_eq_xor, encode_eq_xor, matrix_mul_xor, shiftLeft_xor_distrib]
  rw [Nat.xor_assoc, Nat.xor_assoc]
  congr 1
  exact xor_left_comm _ _ _

theorem encode_shiftRight (d : Nat) : encode d >>> 12 = d := by
  have hlt : matrix_mul d CORE_XPOSE < 2 ^ 12 := matrix_mul_lt d CORE_XPOSE
  show (d <<< CORE_XPOSE.length ||| matrix_mul d CORE_XPOSE) >>> 12 = d
  rw [show CORE_XPOSE.length = 12 from rfl]
  exact shiftLeft_lor_shiftRight hlt

theorem encode_lt {d : Nat} (hd : d < 2 ^ 12) : encode d < 2 ^ 24 := by
  have hlt : matrix_mul d CORE_XPOSE < 2 ^ 12 := matrix_mul_lt d CORE_XPOSE
  show d <<< CORE_XPOSE.length ||| matrix_mul d CORE_XPOSE < 2 ^ 24
  rw [show CORE_XPOSE.length = 12 from rfl]
  exact shiftLeft_lor_lt hd hlt

theorem sigmaP_basis : ∀ i < 12, matrix_mul (encode (2 ^ i)) PAR = 0 := by decide!

theorem sigmaP_encode_eq_zero : ∀ d < 2 ^ 12, matrix_mul (encode d) PAR = 0 := by
  have hf : ∀ x y, matrix_mul (encode (x ^^^ y)) PAR
      = matrix_mul (encode x) PAR ^^^ matrix_mul (encode y) PAR := by
    intro x y
    rw [encode_xor, matrix_mul_xor]
  have h := linmap_eq_of_basis (f := fun d => matrix_mul (encode d) PAR) (g := fun _ => 0)
    hf (fun x y => by simp) (k := 12) (fun i hi => sigmaP_basis i hi)
  intro d hd
  exact h d hd

theorem sigmaA_basis : ∀ i < 12, matrix_mul (encode (2 ^ i)) PAR_ALT = 0 := by decide!

theorem sigmaA_encode_eq_zero : ∀ d < 2 ^ 12, matrix_mul (encode d) PAR_ALT = 0 := by
  have hf : ∀ x y, matrix_mul (encode (x ^^^ y)) PAR_ALT
      = matrix_mul (encode x) PAR_ALT ^^^ matrix_mul (encode y) PAR_ALT := by
    intro x y
    rw [encode_xor, matrix_mul_xor]
  have h := linmap_eq_of_basis (f := fun d => matrix_mul (encode d) PAR_ALT) (g := fun _ => 0)
    hf (fun x y => by simp) (k := 12) (fun i hi => sigmaA_basis i hi)
  intro d hd
  exact h d hd

theorem sigmaP_low_basis : ∀ i < 12, matrix_mul (2 ^ i) PAR = 2 ^ i := by decide!

theorem sigmaP_low_id : ∀ v < 2 ^ 12, matrix_mul v PAR = v := by
  have h := linmap_eq_of_basis (f := fun v => matrix_mul v PAR) (g := fun v => v)
    (fun x y => matrix_mul_xor x y PAR) (fun x y => rfl)
    (k := 12) (fun i hi => sigmaP_low_basis i hi)
  intro v hv
  exact h v hv

theorem sigmaA_top_basis : ∀ i < 12, matrix_mul (2 ^ i <<< 12) PAR_ALT = 2 ^ i := by decide!

theorem sigmaA_top_id : ∀ x < 2 ^ 12, matrix_mul (x <<< 12) PAR_ALT = x := by
  have hf : ∀ x y, matrix_mul ((x ^^^ y) <<< 12) PAR_ALT
      = matrix_mul (x <<< 12) PAR_ALT ^^^ matrix_mul (y <<< 12) PAR_ALT := by
    intro x y
    rw [shiftLeft_xor_distrib, matrix_mul_xor]
  have h := linmap_eq_of_basis (f := fun x => matrix_mul (x <<< 12) PAR_ALT) (g := fun x => x)
    hf (fun x y => rfl) (k := 12) (fun i hi => sigmaA_top_basis i hi)
  intro x hx
  exact h x hx

theorem invA_basis : ∀ i < 12,
    matrix_mul (matrix_mul (2 ^ i) PAR_ALT <<< 12) PAR = 2 ^ i := by decide!

/-- The low-word action of `PAR_ALT` (multiplication by the `A` submatrix) is
inverted by the top-word action of `PAR` (multiplication by `Aᵗ`), since the
extended Golay generator satisfies `A·Aᵗ = I`. -/
theorem invA : ∀ x < 2 ^ 12, matrix_mul (matrix_mul x PAR_ALT <<< 12) PAR = x := by
  have hf : ∀ x y, matrix_mul (matrix_mul (x ^^^ y) PAR_ALT <<< 12) PAR
      = matrix_mul (matrix_mul x PAR_ALT <<< 12) PAR
        ^^^ matrix_mul (matrix_mul y PAR_ALT <<< 12) PAR := by
    intro x y
    rw [matrix_mul_xor, shiftLeft_xor_distrib, matrix_mul_xor]
  have h := linmap_eq_of_basis
    (f := fun x => matrix_mul (matrix_mul x PAR_ALT <<< 12) PAR) (g := fun x => x)
    hf (fun x y => rfl) (k := 12) (fun i hi => invA_basis i hi)
  intro x hx
  exact h x hx

/-- The low-word action of `PAR_ALT` is injective on 12-bit values. -/
theorem sigmaA_low_inj {x y : Nat} (hx : x < 2 ^ 12) (hy : y < 2 ^ 12)
    (h : matrix_mul x PAR_ALT = matrix_mul y PAR_ALT) : x = y := by
  rw [← invA x hx, ← invA y hy, h]

theorem decode_encode : ∀ d < 2 ^ 12, decode (encode d) = some (d, 0) := by
  intro d hd
  show (if popcount (matrix_mul (encode d) PAR_ALT) ≤ 3
      then some (encode d >>> 12 ^^^ matrix_mul (encode d) PAR_ALT,
        popcount (matrix_mul (encode d) PAR_ALT))
      else _) = some (d, 0)
  rw [sigmaA_encode_eq_zero d hd, encode_shiftRight]
  simp [popcount, popcountBits_zero]

/-- Zero syndrome characterizes exact codewords (extended code, `PAR`). -/
theorem syndrome_zero_iff : ∀ w < 2 ^ 24,
    (matrix_mul w PAR = 0 ↔ ∃ d, d < 2 ^ 12 ∧ w = encode d) := by
  intro w hw
  constructor
  · intro h0
    have hd : w >>> 12 < 2 ^ 12 := shiftRight_lt (by exact hw)
    refine ⟨w >>> 12, hd, ?_⟩
    have hv : (w ^^^ encode (w >>> 12)) >>> 12 = 0 := by
      rw [shiftRight_xor_distrib, encode_shiftRight, Nat.xor_self]
    have hvlt : w ^^^ encode (w >>> 12) < 2 ^ 12 := shiftRight_eq_zero_iff.mp hv
    have hsv : matrix_mul (w ^^^ encode (w >>> 12)) PAR = 0 := by
      rw [matrix_mul_xor, h0, sigmaP_encode_eq_zero _ hd]
      simp
    have := sigmaP_low_id _ hvlt
    rw [hsv] at this
    exact Nat.xor_eq_zero.mp this.symm
  · rintro ⟨d, hd, rfl⟩
    exact sigmaP_encode_eq_zero d hd

end Extended

theorem popcount_high_low {a b : Nat} (ha : a < 2 ^ 12) (hb : b < 2 ^ 12) :
    popcount (a <<< 12 ^^^ b) = popcount a + popcount b := by
  rw [Nat.shiftLeft_eq, ← mul_pow_add_eq_xor hb]
  exact popcount_mul_pow_add (by norm_num) ha hb

namespace Extended

theorem sA_lt (w : Nat) : matrix_mul w PAR_ALT < 2 ^ 12 := matrix_mul_lt w PAR_ALT

theorem sP_lt (w : Nat) : matrix_mul w PAR < 2 ^ 12 := matrix_mul_lt w PAR

/-- Unfolding equation for `decode`. -/
theorem decode_eq (word : Nat) : decode word =
    if popcount (matrix_mul word PAR_ALT) ≤ 3
    then some (word >>> 12 ^^^ matrix_mul word PAR_ALT, popcount (matrix_mul word PAR_ALT))
    else
      match stage2 (word >>> 12) (matrix_mul word PAR_ALT) CORE_XPOSE with
      | some r => some r
      | none =>
        if popcount (matrix_mul word PAR) ≤ 3
        then some (word >>> 12, popcount (matrix_mul word PAR))
        else stage4 (word >>> 12) (matrix_mul word PAR) CORE 0 := rfl

/-- XOR-ing a codeword onto a word does not change either syndrome. -/
theorem err_sigmaA {w d2 : Nat} (hd2 : d2 < 2 ^ 12) :
    matrix_mul (w ^^^ encode d2) PAR_ALT = matrix_mul w PAR_ALT := by
  rw [matrix_mul_xor, sigmaA_encode_eq_zero d2 hd2, Nat.xor_zero]

theorem err_sigmaP {w d2 : Nat} (hd2 : d2 < 2 ^ 12) :
    matrix_mul (w ^^^ encode d2) PAR = matrix_mul w PAR := by
  rw [matrix_mul_xor, sigmaP_encode_eq_zero d2 hd2, Nat.xor_zero]

theorem err_data (w d2 : Nat) : (w ^^^ encode d2) >>> 12 = (w >>> 12) ^^^ d2 := by
  rw [shiftRight_xor_distrib, encode_shiftRight]

/-- Split a word's `PAR_ALT` syndrome into the data-part contribution (the
identity block) and the parity-part contribution (the `A` block). -/
theorem sigmaA_split {v : Nat} (hv : v < 2 ^ 24) :
    matrix_mul v PAR_ALT = (v >>> 12) ^^^ matrix_mul (v % 2 ^ 12) PAR_ALT := by
  conv_lhs => rw [split_shift 12 v]
  rw [matrix_mul_xor, sigmaA_top_id (v >>> 12) (shiftRight_lt hv)]

/-- Split a word's `PAR` syndrome into the data-part contribution (the `Aᵗ`
block) and the parity-part contribution (the identity block). -/
theorem sigmaP_split (v : Nat) :
    matrix_mul v PAR = matrix_mul ((v >>> 12) <<< 12) PAR ^^^ v % 2 ^ 12 := by
  conv_lhs => rw [split_shift 12 v]
  rw [matrix_mul_xor, sigmaP_low_id (v % 2 ^ 12) (Nat.mod_lt _ (Nat.two_pow_pos 12))]

/-- Given the two syndrome components of an error word whose data part is
`dv`, the error word is exactly `dv <<< 12 ^^^ lv` where `lv` is the unique
parity part with the observed `A`-block image. -/
theorem err_word_eq {v dv lv : Nat} (hlv : lv < 2 ^ 12)
    (hdata : v >>> 12 = dv)
    (hlow : matrix_mul (v % 2 ^ 12) PAR_ALT = matrix_mul lv PAR_ALT) :
    v = dv <<< 12 ^^^ lv := by
  have hmod : v % 2 ^ 12 = lv :=
    sigmaA_low_inj (Nat.mod_lt _ (Nat.two_pow_pos 12)) hlv hlow
  conv_lhs => rw [split_shift 12 v]
  rw [hdata, hmod]

theorem coreXpose_mem_lt : ∀ q ∈ CORE_XPOSE, q < 2 ^ 12 := by decide!

/-- Each row of `CORE_XPOSE` is the `PAR_ALT` syndrome of a single parity
bit: row `j` is the image of `2 ^ (11 - j)`. -/
theorem coreXpose_preimage : ∀ q ∈ CORE_XPOSE,
    ∃ u, u < 2 ^ 12 ∧ popcount u = 1 ∧ matrix_mul u PAR_ALT = q := by
  intro q hq
  simp only [CORE_XPOSE, List.mem_cons, List.not_mem_nil, or_false] at hq
  rcases hq with rfl | rfl | rfl | rfl | rfl | rfl | rfl | rfl | rfl | rfl | rfl | rfl
  · exact ⟨2 ^ 11, by norm_num, by decide!, by decide!⟩
  · exact ⟨2 ^ 10, by norm_num, by decide!, by decide!⟩
  · exact ⟨2 ^ 9, by norm_num, by decide!, by decide!⟩
  · exact ⟨2 ^ 8, by norm_num, by decide!, by decide!⟩
  · exact ⟨2 ^ 7, by norm_num, by decide!, by decide!⟩
  · exact ⟨2 ^ 6, by norm_num, by decide!, by decide!⟩
  · exact ⟨2 ^ 5, by norm_num, by decide!, by decide!⟩
  · exact ⟨2 ^ 4, by norm_num, by decide!, by decide!⟩
  · exact ⟨2 ^ 3, by norm_num, by decide!, by decide!⟩
  · exact ⟨2 ^ 2, by norm_num, by decide!, by decide!⟩
  · exact ⟨2 ^ 1, by norm_num, by decide!, by decide!⟩
  · exact ⟨2 ^ 0, by norm_num, by decide!, by decide!⟩

/-- Row `j` of `CORE` is the `PAR` syndrome of the data bit `11 - j` (word
bit `23 - j`). -/
theorem core_syndrome : ∀ j < 12,
    matrix_mul ((1 <<< 11 >>> j) <<< 12) PAR = CORE.getD j 0 := by decide!

theorem popcount_err_bit : ∀ j < 12, popcount (1 <<< 11 >>> j) = 1 := by decide!

theorem err_bit_lt : ∀ j < 12, (1 <<< 11 >>> j) < 2 ^ 12 := by decide!

theorem stage2_some_chr {data s : Nat} : ∀ {l : List Nat} {r : Nat × Nat},
    stage2 data s l = some r →
    ∃ q ∈ l, popcount (s ^^^ q) ≤ 2 ∧ r = (data ^^^ (s ^^^ q), popcount (s ^^^ q) + 1) := by
  intro l
  induction l with
  | nil => intro r h; exact absurd h (by simp [stage2])
  | cons q rest ih =>
    intro r h
    by_cases hq : popcount (s ^^^ q) ≤ 2
    · refine ⟨q, by simp, hq, ?_⟩
      have : some (data ^^^ (s ^^^ q), popcount (s ^^^ q) + 1) = some r := by
        rw [← h]; simp [stage2, hq]
      exact (Option.some_inj.mp this).symm
    · have hrec : stage2 data s rest = some r := by
        rw [← h]; simp [stage2, hq]
      obtain ⟨q2, hmem, hq2, hr⟩ := ih hrec
      exact ⟨q2, by simp [hmem], hq2, hr⟩

theorem stage4_some_chr {data s : Nat} : ∀ (l : List Nat) (i0 : Nat) {r : Nat × Nat},
    stage4 data s l i0 = some r →
    ∃ j < l.length, popcount (s ^^^ l.getD j 0) ≤ 2 ∧
      r = (data ^^^ (1 <<< 11 >>> (i0 + j)), 3) := by
  intro l
  induction l with
  | nil => intro i0 r h; exact absurd h (by simp [stage4])
  | cons q rest ih =>
    intro i0 r h
    by_cases hq : popcount (s ^^^ q) ≤ 2
    · refine ⟨0, by simp, by simpa using hq, ?_⟩
      have : some (data ^^^ (1 <<< 11 >>> i0), 3) = some r := by
        rw [← h]; simp [stage4, hq]
      rw [← Option.some_inj.mp this]
      simp
    · have hrec : stage4 data s rest (i0 + 1) = some r := by
        rw [← h]; simp [stage4, hq]
      obtain ⟨j, hj, hq2, hr⟩ := ih (i0 + 1) hrec
      refine ⟨j + 1, by simpa using hj, by simpa using hq2, ?_⟩
      rw [hr, show i0 + 1 + j = i0 + (j + 1) from by omega]

theorem stage4_some_chr0 {data s : Nat} {l : List Nat} {r : Nat × Nat}
    (h : stage4 data s l 0 = some r) :
    ∃ j < l.length, popcount (s ^^^ l.getD j 0) ≤ 2 ∧
      r = (data ^^^ (1 <<< 11 >>> j), 3) := by
  obtain ⟨j, hj, hwt, hr⟩ := stage4_some_chr l 0 h
  exact ⟨j, hj, hwt, by simpa using hr⟩

/-- Soundness of `extended::decode`: every successful result is a well-formed
12-bit data word, reports at most 3 corrections, and its re-encoding is
within Hamming distance 3 of the received word. -/
theorem decode_sound : ∀ w < 2 ^ 24, ∀ r : Nat × Nat, decode w = some r →
    r.1 < 2 ^ 12 ∧ r.2 ≤ 3 ∧ popcount (w ^^^ encode r.1) ≤ 3 := by
  intro w hw r h
  have hdata : w >>> 12 < 2 ^ 12 := shiftRight_lt hw
  rw [decode_eq] at h
  by_cases h1 : popcount (matrix_mul w PAR_ALT) ≤ 3
  · rw [if_pos h1] at h
    obtain rfl : (w >>> 12 ^^^ matrix_mul w PAR_ALT, popcount (matrix_mul w PAR_ALT)) = r :=
      Option.some_inj.mp h
    have hr1 : w >>> 12 ^^^ matrix_mul w PAR_ALT < 2 ^ 12 :=
      Nat.xor_lt_two_pow hdata (sA_lt w)
    refine ⟨hr1, h1, ?_⟩
    set d2 := w >>> 12 ^^^ matrix_mul w PAR_ALT with hd2def
    set v := w ^^^ encode d2 with hvdef
    have hvlt : v < 2 ^ 24 := Nat.xor_lt_two_pow hw (encode_lt hr1)
    have hvdata : v >>> 12 = matrix_mul w PAR_ALT := by
      rw [hvdef, err_data, hd2def, ← Nat.xor_assoc, Nat.xor_self, Nat.zero_xor]
    have hsv : matrix_mul v PAR_ALT = matrix_mul w PAR_ALT := err_sigmaA hr1
    have hlow : matrix_mul (v % 2 ^ 12) PAR_ALT = matrix_mul 0 PAR_ALT := by
      have hs := sigmaA_split hvlt
      rw [hsv, hvdata] at hs
      have h6 : matrix_mul w PAR_ALT ^^^ matrix_mul w PAR_ALT
          = matrix_mul w PAR_ALT ^^^ (matrix_mul w PAR_ALT ^^^ matrix_mul (v % 2 ^ 12) PAR_ALT) := by
        rw [← hs]
      rw [Nat.xor_self, Nat.xor_cancel_left] at h6
      rw [matrix_mul_zero]
      exact h6.symm
    have hv : v = matrix_mul w PAR_ALT <<< 12 ^^^ 0 :=
      err_word_eq (Nat.two_pow_pos 12) hvdata hlow
    rw [hv, Nat.xor_zero, Nat.shiftLeft_eq,
      show matrix_mul w PAR_ALT * 2 ^ 12 = matrix_mul w PAR_ALT * 2 ^ 12 + 0 by omega,
      popcount_mul_pow_add (by norm_num) (sA_lt w) (Nat.two_pow_pos 12)]
    simpa [popcount, popcountBits_zero] using h1
  · rw [if_neg h1] at h
    rcases h2 : stage2 (w >>> 12) (matrix_mul w PAR_ALT) CORE_XPOSE with _ | r2
    · rw [h2] at h
      by_cases h3 : popcount (matrix_mul w PAR) ≤ 3
      · rw [if_pos h3] at h
        obtain rfl : (w >>> 12, popcount (matrix_mul w PAR)) = r := Option.some_inj.mp h
        refine ⟨hdata, h3, ?_⟩
        set v := w ^^^ encode (w >>> 12) with hvdef
        have hvdata : v >>> 12 = 0 := by
          rw [hvdef, err_data, Nat.xor_self]
        have hvlt : v < 2 ^ 12 := shiftRight_eq_zero_iff.mp hvdata
        have hsv : matrix_mul v PAR = matrix_mul w PAR := err_sigmaP hdata
        have hid := sigmaP_low_id v hvlt
        rw [hsv] at hid
        rwa [hid] at h3
      · rw [if_neg h3] at h
        obtain ⟨j, hj, hwt, rfl⟩ := stage4_some_chr0 h
        have hj12 : j < 12 := by simpa [CORE] using hj
        have hbit : 1 <<< 11 >>> j < 2 ^ 12 := err_bit_lt j hj12
        have hr1 : w >>> 12 ^^^ (1 <<< 11 >>> j) < 2 ^ 12 :=
          Nat.xor_lt_two_pow hdata hbit
        refine ⟨hr1, le_refl 3, ?_⟩
        set d2 := w >>> 12 ^^^ (1 <<< 11 >>> j) with hd2def
        set v := w ^^^ encode d2 with hvdef
        have hvlt : v < 2 ^ 24 := Nat.xor_lt_two_pow hw (encode_lt hr1)
        have hvdata : v >>> 12 = 1 <<< 11 >>> j := by
          rw [hvdef, err_data, hd2def, ← Nat.xor_assoc, Nat.xor_self, Nat.zero_xor]
        have hsv : matrix_mul v PAR = matrix_mul w PAR := err_sigmaP hr1
        have hsplit := sigmaP_split v
        rw [hsv, hvdata, core_syndrome j hj12] at hsplit
        have hlv : v % 2 ^ 12 = matrix_mul w PAR ^^^ CORE.getD j 0 := by
          calc v % 2 ^ 12 = CORE.getD j 0 ^^^ (CORE.getD j 0 ^^^ v % 2 ^ 12) :=
                (Nat.xor_cancel_left _ _).symm
            _ = CORE.getD j 0 ^^^ matrix_mul w PAR := by rw [← hsplit]
            _ = matrix_mul w PAR ^^^ CORE.getD j 0 := Nat.xor_comm _ _
        have hcore_lt : CORE.getD j 0 < 2 ^ 12 := by interval_cases j <;> decide
        have hveq : v = (1 <<< 11 >>> j) <<< 12 ^^^ (matrix_mul w PAR ^^^ CORE.getD j 0) := by
          conv_lhs => rw [split_shift 12 v]
          rw [hvdata, hlv]
        rw [hveq, popcount_high_low hbit (Nat.xor_lt_two_pow (sP_lt w) hcore_lt),
          popcount_err_bit j hj12]
        omega
    · rw [h2] at h
      obtain rfl : r2 = r := Option.some_inj.mp h
      obtain ⟨q, hqmem, hwt, rfl⟩ := stage2_some_chr h2
      obtain ⟨u, hu, hu1, hgu⟩ := coreXpose_preimage q hqmem
      have hq12 : q < 2 ^ 12 := coreXpose_mem_lt q hqmem
      have hsyn : matrix_mul w PAR_ALT ^^^ q < 2 ^ 12 :=
        Nat.xor_lt_two_pow (sA_lt w) hq12
      have hr1 : w >>> 12 ^^^ (matrix_mul w PAR_ALT ^^^ q) < 2 ^ 12 :=
        Nat.xor_lt_two_pow hdata hsyn
      refine ⟨hr1, by omega, ?_⟩
      set syn := matrix_mul w PAR_ALT ^^^ q with hsyndef
      set d2 := w >>> 12 ^^^ syn with hd2def
      set v := w ^^^ encode d2 with hvdef
      have hvlt : v < 2 ^ 24 := Nat.xor_lt_two_pow hw (encode_lt hr1)
      have hvdata : v >>> 12 = syn := by
        rw [hvdef, err_data, hd2def, ← Nat.xor_assoc, Nat.xor_self, Nat.zero_xor]
      have hsv : matrix_mul v PAR_ALT = matrix_mul w PAR_ALT := err_sigmaA hr1
      have hsplit := sigmaA_split hvlt
      rw [hsv, hvdata] at hsplit
      have hlow : matrix_mul (v % 2 ^ 12) PAR_ALT = matrix_mul u PAR_ALT := by
        rw [hgu]
        have h4 : matrix_mul w PAR_ALT = syn ^^^ matrix_mul (v % 2 ^ 12) PAR_ALT := hsplit
        have h5 : syn ^^^ matrix_mul w PAR_ALT = matrix_mul (v % 2 ^ 12) PAR_ALT := by
          rw [h4, ← Nat.xor_assoc, Nat.xor_self, Nat.zero_xor]
        rw [← h5, hsyndef, Nat.xor_comm (matrix_mul w PAR_ALT) q, Nat.xor_assoc,
          Nat.xor_self, Nat.xor_zero]
      have hveq : v = syn <<< 12 ^^^ u := err_word_eq hu hvdata hlow
      rw [hveq, popcount_high_low hsyn hu, hu1]
      omega

end Extended

/-! ### Fast evaluators for the exhaustive minimum-weight check

`par12` and `pc12f` are branch-free equivalents of the bit parity and the
popcount on 12-bit values; their agreement with `popcount` is verified
exhaustively over all 4096 values.  They only serve to make the one
exhaustive check (the minimum weight of the extended code) cheap to
evaluate; every theorem below is stated in terms of `popcount` and
`matrix_mul` themselves. -/

theorem ball_of_range_all {n : Nat} {p : Nat → Prop} [DecidablePred p]
    (h : ((List.range n).all fun x => decide (p x)) = true) : ∀ x < n, p x := by
  intro x hx
  exact of_decide_eq_true (List.all_eq_true.mp h x (List.mem_range.mpr hx))

theorem par12_eq : ∀ x < 2 ^ 12, par12 x = popcount x % 2 := by
  apply ball_of_range_all
  decide!

theorem pc12f_eq : ∀ x < 2 ^ 12, pc12f x = popcount x := by
  apply ball_of_range_all
  decide!

theorem mmF_eq (v : Nat) (hv : v < 2 ^ 12) :
    ∀ (rows : List Nat) (acc : Nat), mmF v rows acc = mmAux v rows acc := by
  intro rows
  induction rows with
  | nil => intro acc; rfl
  | cons r rest ih =>
    intro acc
    show mmF v rest (2 * acc + par12 (v &&& r)) = mmAux v rest (2 * acc + popcount (v &&& r) % 2)
    rw [par12_eq (v &&& r) (lt_of_le_of_lt Nat.and_le_left hv), ih]

namespace Extended

theorem encode_zero : encode 0 = 0 := by decide!

theorem popcount_encode_split : ∀ d < 2 ^ 12,
    popcount (encode d) = popcount d + popcount (matrix_mul d CORE_XPOSE) := by
  intro d hd
  rw [encode_eq_xor, popcount_high_low hd (matrix_mul_lt d CORE_XPOSE)]

/-- The extended Golay code has minimum weight 8, verified exhaustively over
all 4096 codewords. -/
theorem min_weight : ∀ d < 2 ^ 12, d ≠ 0 → 8 ≤ popcount (encode d) := by
  have hch : ∀ x < 4096, x = 0 ∨ 8 ≤ pc12f x + pc12f (mmF x CORE_XPOSE 0) := by
    apply ball_of_range_all
    decide!
  intro d hd hne
  rcases hch d hd with rfl | hge
  · exact absurd rfl hne
  · rw [popcount_encode_split d hd]
    have hmm : matrix_mul d CORE_XPOSE < 2 ^ 12 := matrix_mul_lt d CORE_XPOSE
    rw [← pc12f_eq d hd, ← pc12f_eq _ hmm]
    have : mmF d CORE_XPOSE 0 = matrix_mul d CORE_XPOSE := mmF_eq d hd CORE_XPOSE 0
    rw [← this]
    exact hge

/-- Detection of every weight-4 error pattern by the extended decoder:
the decoder never miscorrects a word at Hamming distance exactly 4 from a
codeword, because a successful decode would have to land on a codeword
within distance 3, contradicting minimum distance 8. -/
theorem decode_weight4_none : ∀ d < 2 ^ 12, ∀ e < 2 ^ 24, popcount e = 4 →
    decode (encode d ^^^ e) = none := by
  intro d hd e he h4
  rcases hdec : decode (encode d ^^^ e) with _ | r
  · rfl
  · exfalso
    have hwlt : encode d ^^^ e < 2 ^ 24 := Nat.xor_lt_two_pow (encode_lt hd) he
    obtain ⟨hr1, hr2, hdist⟩ := decode_sound _ hwlt r hdec
    have hrew : encode d ^^^ e ^^^ encode r.1 = e ^^^ encode (d ^^^ r.1) := by
      rw [encode_xor, Nat.xor_comm (encode d) e, Nat.xor_assoc]
    rw [hrew] at hdist
    by_cases hdr : d ^^^ r.1 = 0
    · rw [hdr, encode_zero, Nat.xor_zero] at hdist
      omega
    · have hdrlt : d ^^^ r.1 < 2 ^ 12 := Nat.xor_lt_two_pow hd hr1
      have h8 : 8 ≤ popcount (encode (d ^^^ r.1)) := min_weight _ hdrlt hdr
      have hsub := popcount_xor_le (e ^^^ encode (d ^^^ r.1)) e
      have hcancel : e ^^^ encode (d ^^^ r.1) ^^^ e = encode (d ^^^ r.1) := by
        rw [Nat.xor_comm e (encode (d ^^^ r.1)), Nat.xor_cancel_right]
      rw [hcancel] at hsub
      omega

end Extended

namespace Standard

/-- Unfolding equation for `decode`. -/
theorem decode_eq_std (word : Nat) : decode word =
    if popcount (matrix_mul word PAR) ≤ 3
    then some (word >>> 11, popcount (matrix_mul word PAR))
    else
      match stage2 (word >>> 11) (matrix_mul word PAR) SYN 0 with
      | some r => some r
      | none =>
        if popcount (matrix_mul (rotate_11 word) PAR) ≤ 3
        then some (word >>> 11 ^^^ matrix_mul (rotate_11 word) PAR,
          popcount (matrix_mul (rotate_11 word) PAR))
        else stage4 (word >>> 11) (matrix_mul (rotate_11 word) PAR) SYN 0 := rfl

theorem syn_mem_lt : ∀ x ∈ SYN, x < 2 ^ 11 := by decide!

theorem stage2_bound {data s : Nat} (hdata : data < 2 ^ 12) :
    ∀ (l : List Nat) (i0 : Nat), i0 + l.length ≤ 12 →
    ∀ {r : Nat × Nat}, stage2 data s l i0 = some r → r.1 < 2 ^ 12 ∧ r.2 ≤ 3 := by
  intro l
  induction l with
  | nil => intro i0 hlen r h; exact absurd h (by simp [stage2])
  | cons q rest ih =>
    intro i0 hlen r h
    by_cases hq : popcount (s ^^^ q) ≤ 2
    · have : some (data ^^^ (1 <<< i0), popcount (s ^^^ q) + 1) = some r := by
        rw [← h]; simp [stage2, hq]
      obtain rfl := Option.some_inj.mp this
      constructor
      · apply Nat.xor_lt_two_pow hdata
        have hi0 : i0 < 12 := by
          have := hlen
          simp [List.length_cons] at this
          omega
        calc 1 <<< i0 = 2 ^ i0 := by rw [Nat.shiftLeft_eq]; omega
          _ < 2 ^ 12 := Nat.pow_lt_pow_right (by omega) hi0
      · simpa using hq
    · have hrec : stage2 data s rest (i0 + 1) = some r := by
        rw [← h]; simp [stage2, hq]
      exact ih (i0 + 1) (by simp [List.length_cons] at hlen; omega) hrec

theorem stage4_bound {data s : Nat} (hdata : data < 2 ^ 12) (hs : s < 2 ^ 11) :
    ∀ (l : List Nat), (∀ x ∈ l, x < 2 ^ 11) → ∀ (i0 : Nat),
    ∀ {r : Nat × Nat}, stage4 data s l i0 = some r → r.1 < 2 ^ 12 ∧ r.2 ≤ 3 := by
  intro l
  induction l with
  | nil => intro hmem i0 r h; exact absurd h (by simp [stage4])
  | cons q rest ih =>
    intro hmem i0 r h
    have hq11 : q < 2 ^ 11 := hmem q (by simp)
    have hxor : s ^^^ q < 2 ^ 12 := by
      calc s ^^^ q < 2 ^ 11 := Nat.xor_lt_two_pow hs hq11
        _ < 2 ^ 12 := by norm_num
    by_cases hq : popcount (s ^^^ q) ≤ 2
    · by_cases hi : i0 = 0
      · have : some (data ^^^ (s ^^^ q) ^^^ (1 <<< 11), popcount (s ^^^ q) + 1) = some r := by
          rw [← h]; simp [stage4, hq, hi]
        obtain rfl := Option.some_inj.mp this
        refine ⟨?_, by simpa using hq⟩
        apply Nat.xor_lt_two_pow (Nat.xor_lt_two_pow hdata hxor)
        rw [Nat.shiftLeft_eq]
        norm_num
      · have : some (data ^^^ (s ^^^ q), 3) = some r := by
          rw [← h]; simp [stage4, hq, hi]
        obtain rfl := Option.some_inj.mp this
        exact ⟨Nat.xor_lt_two_pow hdata hxor, le_refl 3⟩
    · have hrec : stage4 data s rest (i0 + 1) = some r := by
        rw [← h]; simp [stage4, hq]
      exact ih (fun x hx => hmem x (by simp [hx])) (i0 + 1) hrec

/-- Every successful result of `standard::decode` is well-formed: at most 3
reported corrections and a 12-bit data value. -/
theorem decode_wf : ∀ w < 2 ^ 23, ∀ r : Nat × Nat, decode w = some r →
    r.1 < 2 ^ 12 ∧ r.2 ≤ 3 := by
  intro w hw r h
  have hdata : w >>> 11 < 2 ^ 12 := shiftRight_lt hw
  have hs2 : matrix_mul (rotate_11 w) PAR < 2 ^ 11 := matrix_mul_lt _ PAR
  rw [decode_eq_std] at h
  by_cases h1 : popcount (matrix_mul w PAR) ≤ 3
  · rw [if_pos h1] at h
    obtain rfl := Option.some_inj.mp h
    exact ⟨hdata, h1⟩
  · rw [if_neg h1] at h
    rcases h2 : stage2 (w >>> 11) (matrix_mul w PAR) SYN 0 with _ | r2
    · rw [h2] at h
      by_cases h3 : popcount (matrix_mul (rotate_11 w) PAR) ≤ 3
      · rw [if_pos h3] at h
        obtain rfl := Option.some_inj.mp h
        refine ⟨Nat.xor_lt_two_pow hdata ?_, h3⟩
        calc matrix_mul (rotate_11 w) PAR < 2 ^ 11 := hs2
          _ < 2 ^ 12 := by norm_num
      · rw [if_neg h3] at h
        exact stage4_bound hdata hs2 SYN syn_mem_lt 0 h
    · rw [h2] at h
      obtain rfl := Option.some_inj.mp h
      exact stage2_bound hdata SYN 0 (by simp [SYN]) h2

end Standard

namespace Extended

/-- If the first three stages of `extended::decode` fail, the decoder returns
the result of the fourth stage at the first matching `CORE` row. -/
theorem stage4_first {data s : Nat} :
    ∀ (l : List Nat) (i0 i : Nat), i < l.length →
    popcount (s ^^^ l.getD i 0) ≤ 2 →
    (∀ j < i, ¬popcount (s ^^^ l.getD j 0) ≤ 2) →
    stage4 data s l i0 = some (data ^^^ (1 <<< 11 >>> (i0 + i)), 3) := by
  intro l
  induction l with
  | nil => intro i0 i hi; simp at hi
  | cons q rest ih =>
    intro i0 i hi hmatch hprev
    cases i with
    | zero =>
      simp only [List.getD_cons_zero] at hmatch
      simp [stage4, hmatch]
    | succ i2 =>
      have hq : ¬popcount (s ^^^ q) ≤ 2 := by
        have := hprev 0 (Nat.succ_pos i2)
        simpa using this
      have hrec := ih (i0 + 1) i2 (by simpa using hi)
        (by simpa using hmatch)
        (fun j hj => by
          have := hprev (j + 1) (by omega)
          simpa using this)
      show stage4 data s (q :: rest) i0 = _
      rw [show stage4 data s (q :: rest) i0 = stage4 data s rest (i0 + 1) from by
        simp [stage4, hq]]
      rw [hrec, show i0 + 1 + i2 = i0 + (i2 + 1) from by omega]

/-- Stage 3 of `extended::decode`, as an unfolding: when stages 1 and 2 fail
and the `PAR` syndrome has weight at most 3, the data bits are returned
unchanged. -/
theorem decode_stage3 (w : Nat)
    (h1 : ¬popcount (matrix_mul w PAR_ALT) ≤ 3)
    (h2 : stage2 (w >>> 12) (matrix_mul w PAR_ALT) CORE_XPOSE = none)
    (h3 : popcount (matrix_mul w PAR) ≤ 3) :
    decode w = some (w >>> 12, popcount (matrix_mul w PAR)) := by
  rw [decode_eq, if_neg h1, h2, if_pos h3]

/-- Stage 4 of `extended::decode`, as an unfolding: when stages 1 to 3 fail
and `i` is the first index whose `CORE` row brings the `PAR` syndrome within
weight 2, the decoder flips data bit `11 - i` and reports 3 corrections. -/
theorem decode_stage4 (w i : Nat)
    (h1 : ¬popcount (matrix_mul w PAR_ALT) ≤ 3)
    (h2 : stage2 (w >>> 12) (matrix_mul w PAR_ALT) CORE_XPOSE = none)
    (h3 : ¬popcount (matrix_mul w PAR) ≤ 3)
    (hi : i < 12)
    (hmatch : popcount (matrix_mul w PAR ^^^ CORE.getD i 0) ≤ 2)
    (hprev : ∀ j < i, ¬popcount (matrix_mul w PAR ^^^ CORE.getD j 0) ≤ 2) :
    decode w = some (w >>> 12 ^^^ (1 <<< 11 >>> i), 3) := by
  rw [decode_eq, if_neg h1, h2, if_neg h3]
  show stage4 (w >>> 12) (matrix_mul w PAR) CORE 0 = _
  have h5 := @stage4_first (w >>> 12) (matrix_mul w PAR) CORE 0 i
    (by simpa [CORE] using hi) hmatch hprev
  simpa using h5

end Extended

theorem mmAux_append (v : Nat) : ∀ (l l2 : List Nat) (a : Nat),
    mmAux v (l ++ l2) a = mmAux v l2 (mmAux v l a) := by
  intro l
  induction l with
  | nil => intro l2 a; rfl
  | cons r rest ih => intro l2 a; exact ih l2 (2 * a + popcount (v &&& r) % 2)

theorem matrix_mul_append_one (v r : Nat) (l : List Nat) :
    matrix_mul v (l ++ [r]) = 2 * matrix_mul v l + popcount (v &&& r) % 2 := by
  show mmAux v (l ++ [r]) 0 = _
  rw [mmAux_append]
  rfl

/-- The parity of `popcount ∘ f` vanishes below `2 ^ k` whenever `f` is
GF(2)-linear and the parity vanishes on the basis. -/
theorem popcount_parity_zero_of_basis {f : Nat → Nat}
    (hf : ∀ x y, f (x ^^^ y) = f x ^^^ f y) {k : Nat}
    (hb : ∀ i < k, popcount (f (2 ^ i)) % 2 = 0) :
    ∀ e < 2 ^ k, popcount (f e) % 2 = 0 := by
  have hf0 : f 0 = 0 := by
    have := hf 0 0
    simp at this
    omega
  intro e he
  obtain ⟨l, hlb, rfl⟩ := exists_pow2xor k e he
  clear he
  induction l with
  | nil =>
    show popcount (f 0) % 2 = 0
    rw [hf0]
    simp [popcount, popcountBits_zero]
  | cons i rest ih =>
    show popcount (f (2 ^ i ^^^ pow2xor rest)) % 2 = 0
    rw [hf, popcount_xor_mod_two]
    have h1 := hb i (hlb i (by simp))
    have h2 := ih (fun j hj => hlb j (by simp [hj]))
    omega

namespace Extended

theorem coreXpose_append :
    CORE_XPOSE = Standard.CORE_XPOSE ++ [0b110001110101] := by decide!

/-- The extended codeword is the standard codeword with one extra parity bit
appended as the lowest bit. -/
theorem encode_shift_standard : ∀ d : Nat, encode d >>> 1 = Standard.encode d := by
  intro d
  have hS : matrix_mul d Standard.CORE_XPOSE < 2 ^ 11 := matrix_mul_lt d Standard.CORE_XPOSE
  have hE : matrix_mul d CORE_XPOSE < 2 ^ 12 := matrix_mul_lt d CORE_XPOSE
  have happ : matrix_mul d CORE_XPOSE
      = 2 * matrix_mul d Standard.CORE_XPOSE + popcount (d &&& 0b110001110101) % 2 := by
    rw [coreXpose_append, matrix_mul_append_one]
  have hp : popcount (d &&& 0b110001110101) % 2 ≤ 1 := by omega
  show (d <<< CORE_XPOSE.length ||| matrix_mul d CORE_XPOSE) >>> 1
      = d <<< Standard.CORE_XPOSE.length ||| matrix_mul d Standard.CORE_XPOSE
  rw [show CORE_XPOSE.length = 12 from rfl, show Standard.CORE_XPOSE.length = 11 from rfl,
    shiftLeft_lor_eq_add hE, shiftLeft_lor_eq_add hS]
  rw [Nat.shiftRight_eq_div_pow, pow_one, happ]
  have h12 : (2 : Nat) ^ 12 = 2 ^ 11 * 2 := by norm_num
  rw [h12]
  omega

theorem popcount_encode_basis : ∀ i < 12, popcount (encode (2 ^ i)) % 2 = 0 := by decide!

/-- Every extended codeword has even Hamming weight. -/
theorem popcount_encode_even : ∀ d < 2 ^ 12, popcount (encode d) % 2 = 0 :=
  popcount_parity_zero_of_basis (fun x y => encode_xor x y) popcount_encode_basis

end Extended

theorem checked_none_iff {α : Type} {f : Nat → α} {k x : Nat} :
    (if x >>> k = 0 then some (f x) else none) = none ↔ 2 ^ k ≤ x := by
  by_cases h : x >>> k = 0
  · have := shiftRight_eq_zero_iff.mp h
    simp [h]
    omega
  · have hge : ¬x < 2 ^ k := fun hc => h (shiftRight_eq_zero_iff.mpr hc)
    simp [h]
    omega

theorem checked_some {α : Type} {f : Nat → α} {k x : Nat} (hx : x < 2 ^ k) :
    (if x >>> k = 0 then some (f x) else none) = some (f x) := by
  rw [if_pos (shiftRight_eq_zero_iff.mpr hx)]

/-! ### The claims -/

/-- Claim C1: the spec says both codecs correct every error of weight at
most 3.  This is false for the standard codec: the weight-3 pattern with the
data MSB (bit 22), another data bit (bit 11) and a parity bit (bit 0) set
falls through every cascade stage and `decode` returns `none` instead of
`some (d, 3)`.  The theorem evaluates the code at the failing input
`d = 0`, `e = 0b100_00000000_01__00000000001`. -/
theorem claim_C1_failing_input :
    popcount 0b10000000000100000000001 = 3 ∧
    Standard.decode (Standard.encode 0 ^^^ 0b10000000000100000000001) = none := by
  decide!

/-- Claim C2, counterexample: the claim states that for both codecs every
error of weight at least 4 yields the no-result value.  The standard codec
miscorrects the weight-4 pattern `e = 0b1111` (returning `some (72, 3)`),
and the extended codec miscorrects the weight-5 pattern `e = 0b1101011`
(five bits of a weight-8 codeword; it returns `some (1, 3)`). -/
theorem claim_C2_counterexample :
    (popcount 15 = 4 ∧ Standard.decode (Standard.encode 0 ^^^ 15) = some (72, 3)) ∧
    (popcount 0b1101011 = 5 ∧
      Extended.decode (Extended.encode 0 ^^^ 0b1101011) = some (1, 3)) := by
  decide!

/-- Claim C2, amended: for the extended codec, decoding detects every error
of weight exactly 4: for every 12-bit data value `d` and every 24-bit error
pattern `e` with `popcount e = 4`, `decode (encode d ^^^ e) = none`. -/
theorem claim_C2_amended : ∀ d < 2 ^ 12, ∀ e < 2 ^ 24, popcount e = 4 →
    Extended.decode (Extended.encode d ^^^ e) = none :=
  Extended.decode_weight4_none

theorem claim_C2_witness : Extended.decode (Extended.encode 5 ^^^ 15) = none :=
  claim_C2_amended 5 (by decide) 15 (by decide) (by decide)

/-- Claim C3: for both codecs, decode is a left inverse of encode with zero
corrections reported, for every 12-bit data value. -/
theorem claim_C3_round_trip : ∀ d < 2 ^ 12,
    Standard.decode (Standard.encode d) = some (d, 0) ∧
    Extended.decode (Extended.encode d) = some (d, 0) :=
  fun d hd => ⟨Standard.decode_encode_std d hd, Extended.decode_encode d hd⟩

theorem claim_C3_witness :
    Standard.decode (Standard.encode 2741) = some (2741, 0) ∧
    Extended.decode (Extended.encode 2741) = some (2741, 0) :=
  claim_C3_round_trip 2741 (by decide)

/-- Claim C4: the zero syndrome characterizes exact codewords, for the
standard codec with its parity-check matrix `PAR` and for the extended codec
with its parity-check matrix `PAR`. -/
theorem claim_C4_zero_syndrome :
    (∀ w < 2 ^ 23, (matrix_mul w Standard.PAR = 0 ↔
      ∃ d, d < 2 ^ 12 ∧ w = Standard.encode d)) ∧
    (∀ w < 2 ^ 24, (matrix_mul w Extended.PAR = 0 ↔
      ∃ d, d < 2 ^ 12 ∧ w = Extended.encode d)) :=
  ⟨Standard.syndrome_zero_iff_std, Extended.syndrome_zero_iff⟩

theorem claim_C4_witness :
    (matrix_mul 0 Standard.PAR = 0 ↔ ∃ d, d < 2 ^ 12 ∧ (0 : Nat) = Standard.encode d) ∧
    (matrix_mul 0 Extended.PAR = 0 ↔ ∃ d, d < 2 ^ 12 ∧ (0 : Nat) = Extended.encode d) :=
  ⟨claim_C4_zero_syndrome.1 0 (by decide), claim_C4_zero_syndrome.2 0 (by decide)⟩

/-- Claim C5: for every 12-bit data value, the extended codeword is the
standard codeword with one overall-parity bit appended as the new lowest
bit, and it has even Hamming weight. -/
theorem claim_C5_extended_standard : ∀ d < 2 ^ 12,
    Extended.encode d >>> 1 = Standard.encode d ∧
    popcount (Extended.encode d) % 2 = 0 :=
  fun d hd => ⟨Extended.encode_shift_standard d, Extended.popcount_encode_even d hd⟩

theorem claim_C5_witness :
    Extended.encode 0xABC >>> 1 = Standard.encode 0xABC ∧
    popcount (Extended.encode 0xABC) % 2 = 0 :=
  claim_C5_extended_standard 0xABC (by decide)

/-- Claim C6: when the syndrome places all errors in the parity section, the
decoder returns the data bits unchanged: stage 1 of the standard decoder and
stage 3 of the extended decoder (after stages 1 and 2 fail). -/
theorem claim_C6_parity_isolated :
    (∀ w < 2 ^ 23, popcount (matrix_mul w Standard.PAR) ≤ 3 →
      Standard.decode w = some (w >>> 11, popcount (matrix_mul w Standard.PAR))) ∧
    (∀ w < 2 ^ 24, ¬popcount (matrix_mul w Extended.PAR_ALT) ≤ 3 →
      Extended.stage2 (w >>> 12) (matrix_mul w Extended.PAR_ALT) Extended.CORE_XPOSE = none →
      popcount (matrix_mul w Extended.PAR) ≤ 3 →
      Extended.decode w = some (w >>> 12, popcount (matrix_mul w Extended.PAR))) := by
  constructor
  · intro w _ h1
    rw [Standard.decode_eq_std, if_pos h1]
  · intro w _ h1 h2 h3
    exact Extended.decode_stage3 w h1 h2 h3

theorem claim_C6_witness :
    Standard.decode 0 = some (0 >>> 11, popcount (matrix_mul 0 Standard.PAR)) ∧
    Extended.decode 7 = some (7 >>> 12, popcount (matrix_mul 7 Extended.PAR)) :=
  ⟨claim_C6_parity_isolated.1 0 (by decide) (by decide),
   claim_C6_parity_isolated.2 7 (by decide) (by decide) (by decide) (by decide)⟩

/-- Claim C7: in the extended decoder's fourth cascade stage (stages 1 to 3
having failed), if `i` is the first index in table order of `CORE` with
`popcount (s ^^^ CORE[i]) ≤ 2`, the corrected data bit position is `11 - i`
(computed as `1 <<< 11 >>> i`) and the reported count is the fixed value
3. -/
theorem claim_C7_stage4 : ∀ w < 2 ^ 24, ∀ i : Nat,
    ¬popcount (matrix_mul w Extended.PAR_ALT) ≤ 3 →
    Extended.stage2 (w >>> 12) (matrix_mul w Extended.PAR_ALT) Extended.CORE_XPOSE = none →
    ¬popcount (matrix_mul w Extended.PAR) ≤ 3 →
    i < 12 →
    popcount (matrix_mul w Extended.PAR ^^^ Extended.CORE.getD i 0) ≤ 2 →
    (∀ j < i, ¬popcount (matrix_mul w Extended.PAR ^^^ Extended.CORE.getD j 0) ≤ 2) →
    Extended.decode w = some (w >>> 12 ^^^ (1 <<< 11 >>> i), 3) :=
  fun w _ i h1 h2 h3 hi hm hp => Extended.decode_stage4 w i h1 h2 h3 hi hm hp

theorem claim_C7_witness :
    Extended.decode 0b100000000000000000000011
      = some (0b100000000000000000000011 >>> 12 ^^^ (1 <<< 11 >>> 0), 3) :=
  claim_C7_stage4 0b100000000000000000000011 (by decide) 0 (by decide) (by decide)
    (by decide) (by decide) (by decide) (fun j hj => absurd hj (by omega))

/-- Claim C8: the spec's fixed-point encode examples, for both codecs (the
spec writes the values with an underscore between data and parity bits). -/
theorem claim_C8_examples :
    Standard.encode 0 = 0 ∧
    Standard.encode 0b111111111111 = 0b11111111111111111111111 ∧
    Standard.encode 0b100000000001 = 0b10000000000101001001111 ∧
    Extended.encode 0 = 0 ∧
    Extended.encode 0b111111111111 = 0b111111111111111111111111 ∧
    Extended.encode 0b111111000000 = 0b111111000000110011010001 := by
  decide!

/-- Claim C9: the width assertions abort exactly on out-of-range inputs
(modelled by the `Checked` wrappers, where `none` is the abort): `encode`
aborts exactly when a bit above position 11 is set, `decode` exactly when a
bit at or above the codeword width is set; on in-range inputs both functions
return normally (an uncorrectable word yields the inner `none`, never an
abort, since the inner value is exactly `decode`'s total result). -/
theorem claim_C9_assertions :
    ((∀ d, Standard.encodeChecked d = none ↔ 2 ^ 12 ≤ d) ∧
      (∀ d < 2 ^ 12, Standard.encodeChecked d = some (Standard.encode d))) ∧
    ((∀ w, Standard.decodeChecked w = none ↔ 2 ^ 23 ≤ w) ∧
      (∀ w < 2 ^ 23, Standard.decodeChecked w = some (Standard.decode w))) ∧
    ((∀ d, Extended.encodeChecked d = none ↔ 2 ^ 12 ≤ d) ∧
      (∀ d < 2 ^ 12, Extended.encodeChecked d = some (Extended.encode d))) ∧
    ((∀ w, Extended.decodeChecked w = none ↔ 2 ^ 24 ≤ w) ∧
      (∀ w < 2 ^ 24, Extended.decodeChecked w = some (Extended.decode w))) := by
  refine ⟨⟨fun d => ?_, fun d hd => ?_⟩, ⟨fun w => ?_, fun w hw => ?_⟩,
    ⟨fun d => ?_, fun d hd => ?_⟩, ⟨fun w => ?_, fun w hw => ?_⟩⟩
  · exact checked_none_iff
  · exact checked_some hd
  · exact checked_none_iff
  · exact checked_some hw
  · exact checked_none_iff
  · exact checked_some hd
  · exact checked_none_iff
  · exact checked_some hw

theorem claim_C9_witness :
    Standard.encodeChecked 9 = some (Standard.encode 9) ∧
    Standard.decodeChecked 9 = some (Standard.decode 9) ∧
    Extended.encodeChecked 9 = some (Extended.encode 9) ∧
    Extended.decodeChecked 9 = some (Extended.decode 9) :=
  ⟨claim_C9_assertions.1.2 9 (by decide), claim_C9_assertions.2.1.2 9 (by decide),
   claim_C9_assertions.2.2.1.2 9 (by decide), claim_C9_assertions.2.2.2.2 9 (by decide)⟩

/-- Claim C10: every successful decode result is well-formed, for arbitrary
in-range inputs: at most 3 reported corrections and a data value using only
its low 12 bits. -/
theorem claim_C10_wellformed :
    (∀ w < 2 ^ 23, ∀ r : Nat × Nat, Standard.decode w = some r →
      r.2 ≤ 3 ∧ r.1 < 2 ^ 12) ∧
    (∀ w < 2 ^ 24, ∀ r : Nat × Nat, Extended.decode w = some r →
      r.2 ≤ 3 ∧ r.1 < 2 ^ 12) := by
  constructor
  · intro w hw r h
    have hb := Standard.decode_wf w hw r h
    exact ⟨hb.2, hb.1⟩
  · intro w hw r h
    obtain ⟨h1, h2, _⟩ := Extended.decode_sound w hw r h
    exact ⟨h2, h1⟩

theorem claim_C10_witness :
    (((0 : Nat), (0 : Nat)).2 ≤ 3 ∧ ((0 : Nat), (0 : Nat)).1 < 2 ^ 12) ∧
    (((0 : Nat), (0 : Nat)).2 ≤ 3 ∧ ((0 : Nat), (0 : Nat)).1 < 2 ^ 12) :=
  ⟨claim_C10_wellformed.1 0 (by decide) (0, 0) (by decide),
   claim_C10_wellformed.2 0 (by decide) (0, 0) (by decide)⟩
